import Mathlib

/-!
Verification of the HereForNow renderer.

This file embeds the deterministic SVG/metadata codec of the repository:

* `HereForNowRenderer.generateSVG` — the linear round-to-nearest revision
  (`contracts/HereForNowRenderer.sol`), which also carries `tokenURI` and
  `_formatEther`;
* `HereForNowRendererEase.generateSVG` — the quadratic ease-out revision with
  the solid-fill threshold `SOLID_THRESHOLD = 599`;
* `Base64.encode` — the assembly base64 encoder (`contracts/lib/Base64.sol`),
  embedded at the byte level.

Solidity `uint256` values are modelled as `Nat`; every arithmetic operation in
the renderer stays far below `2^256` (the largest intermediate is
`599 * 1000 * 1000`), so `Nat` arithmetic coincides with the EVM arithmetic.
Strings are modelled as `List Char` (every byte written by the contract is
ASCII); the byte-level pipeline of `tokenURI` works on `List Nat`.
-/

/-! ### Decimal digit writer

`_writeUint` in both renderer revisions writes a value in decimal, most
significant digit first, with a lone `'0'` for zero.  `decDigitsF` is a
fuel-indexed structural version; `decDigits n` uses fuel `n + 1`, which always
suffices because the argument strictly decreases at each division by 10.
-/

def decDigitsF : Nat → Nat → List Char
  | 0, _ => []
  | f+1, n => if n < 10 then [Nat.digitChar n] else decDigitsF f (n / 10) ++ [Nat.digitChar (n % 10)]

/-- Decimal digits of `n`, most significant first; embeds `_writeUint` (and
`Strings.toString`, which produces the same decimal form). -/
def decDigits (n : Nat) : List Char := decDigitsF (n + 1) n

theorem decDigitsF_congr (f g n : Nat) (hf : n < f) (hg : n < g) :
    decDigitsF f n = decDigitsF g n := by
  induction f generalizing g n with
  | zero => omega
  | succ f ih =>
    match g with
    | 0 => omega
    | g+1 =>
      simp only [decDigitsF]
      by_cases h10 : n < 10
      · simp [h10]
      · simp only [h10, if_false]
        have hrec : n / 10 < n := Nat.div_lt_self (by omega) (by omega)
        rw [ih g (n / 10) (by omega) (by omega)]

theorem decDigits_eq (n : Nat) :
    decDigits n = if n < 10 then [Nat.digitChar n] else decDigits (n / 10) ++ [Nat.digitChar (n % 10)] := by
  unfold decDigits
  conv_lhs => rw [decDigitsF]
  by_cases h10 : n < 10
  · simp [h10]
  · have hrec : n / 10 < n := Nat.div_lt_self (by omega) (by omega)
    simp only [h10, if_false]
    rw [decDigitsF_congr n (n / 10 + 1) (n / 10) (by omega) (by omega)]

/-- Every character produced by the digit writer is a decimal digit character. -/
theorem decDigits_mem (n : Nat) : ∀ c ∈ decDigits n, ∃ d, d < 10 ∧ c = Nat.digitChar d := by
  induction n using Nat.strong_induction_on with
  | _ n ih =>
    rw [decDigits_eq]
    by_cases h10 : n < 10
    · simp only [h10, if_true, List.mem_singleton]
      intro c hc
      exact ⟨n, h10, hc⟩
    · simp only [h10, if_false, List.mem_append, List.mem_singleton]
      intro c hc
      rcases hc with hc | hc
      · exact ih (n / 10) (Nat.div_lt_self (by omega) (by omega)) c hc
      · exact ⟨n % 10, Nat.mod_lt _ (by omega), hc⟩

theorem decDigits_len1 {n : Nat} (h : n < 10) : (decDigits n).length = 1 := by
  rw [decDigits_eq]; simp [h]

theorem decDigits_len2 {n : Nat} (h1 : 10 ≤ n) (h2 : n < 100) : (decDigits n).length = 2 := by
  rw [decDigits_eq]
  simp only [show ¬ n < 10 by omega, if_false, List.length_append, List.length_singleton]
  rw [decDigits_len1 (by omega)]

theorem decDigits_len3 {n : Nat} (h1 : 100 ≤ n) (h2 : n < 1000) : (decDigits n).length = 3 := by
  rw [decDigits_eq]
  simp only [show ¬ n < 10 by omega, if_false, List.length_append, List.length_singleton]
  rw [decDigits_len2 (by omega) (by omega)]

theorem decDigits_len4 {n : Nat} (h1 : 1000 ≤ n) (h2 : n < 10000) : (decDigits n).length = 4 := by
  rw [decDigits_eq]
  simp only [show ¬ n < 10 by omega, if_false, List.length_append, List.length_singleton]
  rw [decDigits_len3 (by omega) (by omega)]

/-! ### The two line-placement laws

`linY` is the per-index y-coordinate of the linear revision
(`contracts/HereForNowRenderer.sol`, loop body):
`y = LINE_Y_TOP + ((verticalSpan * i) + (intervals >> 1)) / intervals`
with `LINE_Y_TOP = 200` and `verticalSpan = 599`.

`easeY` is the per-index y-coordinate of the ease-out revision (`part_002`):
`t = (i * 1000) / intervals`, `invT = 1000 - t`,
`y = LINE_Y_TOP + verticalSpan - (verticalSpan * invT * invT) / 1000000`.
-/

def linY (intervals i : Nat) : Nat := 200 + ((599 * i) + (intervals >>> 1)) / intervals

def easeY (intervals i : Nat) : Nat :=
  200 + 599 - (599 * (1000 - (i * 1000) / intervals) * (1000 - (i * 1000) / intervals)) / 1000000

/-- The y-coordinates emitted by the linear revision for `totalLines` lines:
the `totalLines == 2` branch writes the literal coordinates 200 and 799, the
general branch maps `linY` over the indices `0 .. totalLines - 1`. -/
def linYs (totalLines : Nat) : List Nat :=
  if totalLines == 2 then [200, 799]
  else (List.range totalLines).map (linY (totalLines - 1))

/-- The y-coordinates emitted by the ease-out revision below the solid-fill
threshold. -/
def easeYs (totalLines : Nat) : List Nat :=
  if totalLines == 2 then [200, 799]
  else (List.range totalLines).map (easeY (totalLines - 1))

/-! Basic bounds: every emitted y lies in `[200, 799]`, hence has exactly three
decimal digits. -/

theorem linY_le {d i : Nat} (hd : 0 < d) (hi : i ≤ d) : linY d i ≤ 799 := by
  unfold linY
  have h1 : 599 * i + d >>> 1 ≤ 599 * d + d >>> 1 := by
    have := Nat.mul_le_mul_left 599 hi
    omega
  have h2 : (599 * i + d >>> 1) / d ≤ (599 * d + d >>> 1) / d := Nat.div_le_div_right h1
  have h3 : (599 * d + d >>> 1) / d = d >>> 1 / d + 599 := by
    rw [Nat.add_comm (599 * d)]
    exact Nat.add_mul_div_right _ _ hd
  have h4 : d >>> 1 < d := by
    rw [Nat.shiftRight_eq_div_pow]
    simp only [pow_one]
    omega
  have h5 : d >>> 1 / d = 0 := Nat.div_eq_of_lt h4
  omega

theorem linY_ge (d i : Nat) : 200 ≤ linY d i := Nat.le_add_right _ _

theorem easeY_le (d i : Nat) : easeY d i ≤ 799 := by
  unfold easeY
  exact le_trans (Nat.sub_le _ _) (by norm_num)

theorem easeY_ge (d i : Nat) : 200 ≤ easeY d i := by
  unfold easeY
  have h1 : 1000 - (i * 1000) / d ≤ 1000 := Nat.sub_le _ _
  have h2 : 599 * (1000 - (i * 1000) / d) * (1000 - (i * 1000) / d) ≤ 599 * 1000 * 1000 := by
    apply Nat.mul_le_mul
    · exact Nat.mul_le_mul_left 599 h1
    · exact h1
  have h3 : 599 * (1000 - (i * 1000) / d) * (1000 - (i * 1000) / d) / 1000000 ≤ 599 := by
    calc 599 * (1000 - (i * 1000) / d) * (1000 - (i * 1000) / d) / 1000000
        ≤ 599 * 1000 * 1000 / 1000000 := Nat.div_le_div_right h2
      _ = 599 := by norm_num
  revert h3
  generalize 599 * (1000 - (i * 1000) / d) * (1000 - (i * 1000) / d) / 1000000 = A
  intro h3
  omega

/-! ### Round-to-nearest with halves up (claim C2)

The linear law adds half the divisor before dividing.  `roundHalfUp n d`
is the textbook "nearest integer to `n / d`, halves rounded up", namely
`⌊(2n + d) / 2d⌋`.
-/

def roundHalfUp (n d : Nat) : Nat := (2 * n + d) / (2 * d)

theorem odd_div_double {m d : Nat} (hd : 0 < d) : (2 * m + 1) / (2 * d) = m / d := by
  conv_lhs => rw [← Nat.div_add_mod m d]
  have hlt : m % d < d := Nat.mod_lt _ hd
  have h1 : 2 * (d * (m / d) + m % d) + 1 = 2 * (m % d) + 1 + 2 * d * (m / d) := by ring
  rw [h1, Nat.add_mul_div_left _ _ (by omega : 0 < 2 * d), Nat.div_eq_of_lt (by omega)]
  omega

/-- Adding half the divisor before a truncating division implements
round-to-nearest with halves up. -/
theorem half_add_div (n d : Nat) (hd : 0 < d) : (n + d >>> 1) / d = roundHalfUp n d := by
  unfold roundHalfUp
  rw [Nat.shiftRight_eq_div_pow]
  simp only [pow_one]
  rcases Nat.even_or_odd d with ⟨k, hk⟩ | ⟨k, hk⟩
  · subst hk
    have h1 : (k + k) / 2 = k := by omega
    rw [h1]
    have h2 : 2 * n + (k + k) = 2 * (n + k) := by ring
    have h3 : 2 * (k + k) = 2 * (2 * k) := by ring
    rw [h2, h3, Nat.mul_div_mul_left _ _ (by omega : (0:Nat) < 2)]
    have h4 : k + k = 2 * k := by ring
    rw [h4]
  · subst hk
    have h2 : (2 * k + 1) / 2 = k := by omega
    have h3 : 2 * n + (2 * k + 1) = 2 * (n + k) + 1 := by ring
    rw [h2, h3, odd_div_double (by omega)]

/-- `roundHalfUp n d` is the unique integer `r` with
`n/d - 1/2 < r ≤ n/d + 1/2` (scaled by `2d` to stay in integers): it is the
nearest integer to `n / d` and ties go up. -/
theorem roundHalfUp_spec (n d : Nat) (hd : 0 < d) :
    2 * d * roundHalfUp n d ≤ 2 * n + d ∧ 2 * n + d < 2 * d * roundHalfUp n d + 2 * d := by
  unfold roundHalfUp
  have h1 := Nat.div_add_mod (2 * n + d) (2 * d)
  have h2 : (2 * n + d) % (2 * d) < 2 * d := Nat.mod_lt _ (by omega)
  revert h1 h2
  generalize (2 * n + d) / (2 * d) = q
  generalize (2 * n + d) % (2 * d) = s
  intro h1 h2
  omega

/-- Element `i` of the mapped index range. -/
theorem map_range_getD {α : Type} (f : Nat → α) (a : α) {L i : Nat} (hi : i < L) :
    (((List.range L).map f).getD i a) = f i := by
  rw [List.getD_eq_getElem?_getD, List.getElem?_map, List.getElem?_range hi]
  rfl

/-! ### Endpoints and monotonicity of the two laws -/

theorem shiftRight_one_lt {d : Nat} (hd : 0 < d) : d >>> 1 < d := by
  rw [Nat.shiftRight_eq_div_pow]
  simp only [pow_one]
  omega

theorem linY_zero {d : Nat} (hd : 0 < d) : linY d 0 = 200 := by
  unfold linY
  simp [Nat.div_eq_of_lt (shiftRight_one_lt hd)]

theorem linY_last {d : Nat} (hd : 0 < d) : linY d d = 799 := by
  unfold linY
  rw [Nat.add_comm (599 * d), Nat.add_mul_div_right _ _ hd,
    Nat.div_eq_of_lt (shiftRight_one_lt hd)]

theorem easeY_zero (d : Nat) : easeY d 0 = 200 := by
  unfold easeY
  norm_num

theorem easeY_last {d : Nat} (hd : 0 < d) : easeY d d = 799 := by
  unfold easeY
  rw [Nat.mul_div_cancel_left 1000 hd]

theorem linY_mono (d : Nat) {i j : Nat} (h : i ≤ j) : linY d i ≤ linY d j := by
  unfold linY
  apply Nat.add_le_add_left
  apply Nat.div_le_div_right
  apply Nat.add_le_add_right
  exact Nat.mul_le_mul_left 599 h

theorem easeY_mono (d : Nat) {i j : Nat} (h : i ≤ j) : easeY d i ≤ easeY d j := by
  unfold easeY
  have ht : (i * 1000) / d ≤ (j * 1000) / d :=
    Nat.div_le_div_right (Nat.mul_le_mul_right 1000 h)
  have hinv : 1000 - (j * 1000) / d ≤ 1000 - (i * 1000) / d := Nat.sub_le_sub_left ht 1000
  have hsq : 599 * (1000 - (j * 1000) / d) * (1000 - (j * 1000) / d) ≤
      599 * (1000 - (i * 1000) / d) * (1000 - (i * 1000) / d) :=
    Nat.mul_le_mul (Nat.mul_le_mul_left 599 hinv) hinv
  exact Nat.sub_le_sub_left (Nat.div_le_div_right hsq) (200 + 599)

theorem map_range_head {α : Type} (f : Nat → α) {L : Nat} (hL : 0 < L) :
    ((List.range L).map f).head? = some (f 0) := by
  rw [List.head?_eq_getElem?, List.getElem?_map, List.getElem?_range hL]
  rfl

theorem map_range_getLast {α : Type} (f : Nat → α) {L : Nat} (hL : 0 < L) :
    ((List.range L).map f).getLast? = some (f (L - 1)) := by
  obtain ⟨m, rfl⟩ : ∃ m, L = m + 1 := ⟨L - 1, by omega⟩
  rw [List.range_succ, List.map_append]
  simp

/-! ### Claim theorems C2, C3, C5, C6 -/

/-- Claim C2: for every `totalLines ≥ 3` and index `i < totalLines`, with
`intervals = totalLines - 1`, the y-coordinate emitted by the linear-law
renderer equals `200` plus the nearest integer to `599 * i / intervals` with
halves rounded up (characterised by the two scaled inequalities), and that
value is exactly the implemented expression
`200 + ((599 * i) + (intervals >> 1)) / intervals`. -/
theorem linear_y_round_half_up (L i : Nat) (hL : 3 ≤ L) (hi : i < L) :
    (linYs L).getD i 0 = 200 + ((599 * i) + ((L - 1) >>> 1)) / (L - 1) ∧
    (linYs L).getD i 0 = 200 + roundHalfUp (599 * i) (L - 1) ∧
    2 * (L - 1) * roundHalfUp (599 * i) (L - 1) ≤ 2 * (599 * i) + (L - 1) ∧
    2 * (599 * i) + (L - 1) < 2 * (L - 1) * roundHalfUp (599 * i) (L - 1) + 2 * (L - 1) := by
  have hd : 0 < L - 1 := by omega
  have hne : ¬ (L == 2) = true := by simp; omega
  have hYs : (linYs L).getD i 0 = linY (L - 1) i := by
    unfold linYs
    rw [if_neg hne]
    exact map_range_getD _ _ hi
  refine ⟨?_, ?_, (roundHalfUp_spec _ _ hd).1, (roundHalfUp_spec _ _ hd).2⟩
  · rw [hYs]; rfl
  · rw [hYs]
    unfold linY
    rw [half_add_div _ _ hd]

/-- Witness for C2 at `totalLines = 5`, `i = 3`. -/
theorem linear_y_round_half_up_witness :
    (linYs 5).getD 3 0 = 200 + ((599 * 3) + ((5 - 1) >>> 1)) / (5 - 1) ∧
    (linYs 5).getD 3 0 = 200 + roundHalfUp (599 * 3) (5 - 1) ∧
    2 * (5 - 1) * roundHalfUp (599 * 3) (5 - 1) ≤ 2 * (599 * 3) + (5 - 1) ∧
    2 * (599 * 3) + (5 - 1) < 2 * (5 - 1) * roundHalfUp (599 * 3) (5 - 1) + 2 * (5 - 1) :=
  linear_y_round_half_up 5 3 (by omega) (by omega)

/-- Claim C3: for every `totalLines` with `3 ≤ totalLines < 599` and every
index `i < totalLines`, with `intervals = totalLines - 1`, the ease-out
renderer's y-coordinate equals
`200 + 599 - (599 * (1000 - (i*1000)/intervals)^2) / 1000000`,
with both divisions truncating and performed in that order. -/
theorem ease_y_formula (L i : Nat) (hL : 3 ≤ L) (hT : L < 599) (hi : i < L) :
    (easeYs L).getD i 0 =
      200 + 599 - (599 * (1000 - (i * 1000) / (L - 1)) ^ 2) / 1000000 := by
  have hne : ¬ (L == 2) = true := by simp; omega
  unfold easeYs
  rw [if_neg hne, map_range_getD _ _ hi]
  unfold easeY
  congr 1
  congr 1
  ring

/-- Witness for C3 at `totalLines = 4`, `i = 1`. -/
theorem ease_y_formula_witness :
    (easeYs 4).getD 1 0 = 200 + 599 - (599 * (1000 - (1 * 1000) / (4 - 1)) ^ 2) / 1000000 :=
  ease_y_formula 4 1 (by omega) (by omega) (by omega)

/-- Claim C5: for every `presenceCount` (with `totalLines = presenceCount + 2`),
the first emitted y-coordinate is 200 and the last is 799 under the linear law,
and likewise under the ease-out law below the solid-fill threshold, including
the `totalLines == 2` special case. -/
theorem first_last_y_endpoints (n : Nat) :
    (linYs (n + 2)).head? = some 200 ∧ (linYs (n + 2)).getLast? = some 799 ∧
    (n + 2 < 599 →
      (easeYs (n + 2)).head? = some 200 ∧ (easeYs (n + 2)).getLast? = some 799) := by
  by_cases h2 : n + 2 = 2
  · rw [h2]
    refine ⟨rfl, rfl, fun _ => ⟨rfl, rfl⟩⟩
  · have hd : 0 < n + 2 - 1 := by omega
    have hne : ¬ (n + 2 == 2) = true := by simp; omega
    have hL : 0 < n + 2 := by omega
    unfold linYs easeYs
    rw [if_neg hne, if_neg hne]
    refine ⟨?_, ?_, fun _ => ⟨?_, ?_⟩⟩
    · rw [map_range_head _ hL, linY_zero hd]
    · rw [map_range_getLast _ hL, linY_last hd]
    · rw [map_range_head _ hL, easeY_zero]
    · rw [map_range_getLast _ hL, easeY_last hd]

/-- Witness for C5 at `presenceCount = 1` (three lines). -/
theorem first_last_y_endpoints_witness :
    (linYs (1 + 2)).head? = some 200 ∧ (linYs (1 + 2)).getLast? = some 799 ∧
    (1 + 2 < 599 →
      (easeYs (1 + 2)).head? = some 200 ∧ (easeYs (1 + 2)).getLast? = some 799) :=
  first_last_y_endpoints 1

/-- Claim C6: for every `totalLines ≥ 2` the sequence of emitted
y-coordinates is non-decreasing in the line index, under both the linear
round-to-nearest law and the quadratic ease-out law. -/
theorem y_sequences_monotone (L : Nat) (hL : 2 ≤ L) :
    List.Pairwise (· ≤ ·) (linYs L) ∧ List.Pairwise (· ≤ ·) (easeYs L) := by
  by_cases h2 : L = 2
  · subst h2
    exact ⟨by decide, by decide⟩
  · have hne : ¬ (L == 2) = true := by simp; omega
    unfold linYs easeYs
    rw [if_neg hne, if_neg hne]
    constructor
    · rw [List.pairwise_map]
      exact (List.pairwise_le_range L).imp (fun h => linY_mono _ h)
    · rw [List.pairwise_map]
      exact (List.pairwise_le_range L).imp (fun h => easeY_mono _ h)

/-- Witness for C6 at `totalLines = 4`. -/
theorem y_sequences_monotone_witness :
    List.Pairwise (· ≤ ·) (linYs 4) ∧ List.Pairwise (· ≤ ·) (easeYs 4) :=
  y_sequences_monotone 4 (by omega)

/-! ### SVG document assembly

The renderer builds its output by a sequence of `_writeString` / `_writeUint`
calls at a moving pointer; sequential writes concatenate, so the generated
document is the concatenation of the written pieces, in source order.
-/

def svgHeader : List Char :=
  "<svg width=\"4000\" height=\"4000\" viewBox=\"0 0 1000 1000\" fill=\"none\" xmlns=\"http://www.w3.org/2000/svg\">".data

def svgDefs : List Char :=
  "<defs><rect id=\"l\" width=\"400\" height=\"1\" fill=\"white\"/></defs>".data

def svgBg : List Char := "<rect width=\"1000\" height=\"1000\" fill=\"#0A0A0A\"/>".data

def use200 : List Char := "<use href=\"#l\" x=\"300\" y=\"200\"/>".data

def use799 : List Char := "<use href=\"#l\" x=\"300\" y=\"799\"/>".data

def lineOpen : List Char := "<use href=\"#l\" x=\"300\" y=\"".data

def lineClose : List Char := "\"/>".data

def whiteRect : List Char :=
  "<rect x=\"300\" y=\"200\" width=\"400\" height=\"600\" fill=\"white\"/>".data

def svgFoot : List Char := "</svg>".data

/-- One emitted line element: opening text, decimal y, closing text. -/
def lineTok (y : Nat) : List Char := lineOpen ++ decDigits y ++ lineClose

namespace HereForNowRenderer

/-- `generateSVG` of the linear revision (`contracts/HereForNowRenderer.sol`),
as the list of characters written to the output buffer, in write order. -/
def generateSVGChars (activeDepositors : Nat) : List Char :=
  let totalLines := 2 + activeDepositors
  svgHeader ++ svgDefs ++ svgBg ++
    (if totalLines == 2 then use200 ++ use799
     else ((List.range totalLines).map (fun i => lineTok (linY (totalLines - 1) i))).flatten) ++
    svgFoot

def generateSVG (activeDepositors : Nat) : String := ⟨generateSVGChars activeDepositors⟩

/-- The precomputed buffer capacity:
`bufferSize = 200 + (totalLines * 30) + 10` with `totalLines = 2 + activeDepositors`. -/
def bufferSize (activeDepositors : Nat) : Nat := 200 + ((2 + activeDepositors) * 30) + 10

end HereForNowRenderer

namespace HereForNowRendererEase

/-- `generateSVG` of the ease-out revision (`part_002`), with
`SOLID_THRESHOLD = 599` checked first, then the `totalLines == 2` special
case, then the per-line loop. -/
def generateSVGChars (activeParticipants : Nat) : List Char :=
  let totalLines := 2 + activeParticipants
  svgHeader ++ svgDefs ++ svgBg ++
    (if 599 ≤ totalLines then whiteRect
     else if totalLines == 2 then use200 ++ use799
     else ((List.range totalLines).map (fun i => lineTok (easeY (totalLines - 1) i))).flatten) ++
    svgFoot

def generateSVG (activeParticipants : Nat) : String := ⟨generateSVGChars activeParticipants⟩

end HereForNowRendererEase

/-! ### Counting substring occurrences

`countSub p s` counts the positions of `s` at which the pattern `p` occurs.
All patterns of interest start with `'<'`, and every piece of the document is
a tag starting with `'<'` that contains no further `'<'`, so occurrences can
only sit at piece boundaries.
-/

def countSub (p : List Char) : List Char → Nat
  | [] => 0
  | c :: rest => (if p.isPrefixOf (c :: rest) then 1 else 0) + countSub p rest

theorem isPrefixOf_append_of {p t : List Char} (r : List Char)
    (h : p.isPrefixOf t = true) : p.isPrefixOf (t ++ r) = true := by
  induction p generalizing t with
  | nil => simp [List.isPrefixOf]
  | cons a p' ih =>
    match t with
    | [] => simp [List.isPrefixOf] at h
    | b :: t' =>
      simp only [List.isPrefixOf, Bool.and_eq_true] at h
      simp only [List.cons_append, List.isPrefixOf, Bool.and_eq_true]
      exact ⟨h.1, ih h.2⟩

theorem isPrefixOf_append_false {p : List Char} (t : List Char)
    (h : (p.take t.length).isPrefixOf t = false) (r : List Char) :
    p.isPrefixOf (t ++ r) = false := by
  induction t generalizing p with
  | nil => simp [List.isPrefixOf] at h
  | cons b t' ih =>
    match p with
    | [] => simp [List.isPrefixOf] at h
    | a :: p' =>
      simp only [List.length_cons, List.take_succ_cons, List.isPrefixOf,
        Bool.and_eq_false_iff] at h
      simp only [List.cons_append, List.isPrefixOf, Bool.and_eq_false_iff]
      rcases h with h | h
      · exact Or.inl h
      · exact Or.inr (ih h)

theorem countSub_skip {q : List Char} (l r : List Char) (hl : '<' ∉ l) :
    countSub ('<' :: q) (l ++ r) = countSub ('<' :: q) r := by
  induction l with
  | nil => rfl
  | cons c l' ih =>
    have hcne : ¬ '<' = c := fun hh => hl (hh ▸ List.mem_cons_self c l')
    have hc : ('<' :: q).isPrefixOf (c :: (l' ++ r)) = false := by
      simp [List.isPrefixOf, hcne]
    calc countSub ('<' :: q) ((c :: l') ++ r)
        = (if ('<' :: q).isPrefixOf (c :: (l' ++ r)) then 1 else 0) +
            countSub ('<' :: q) (l' ++ r) := rfl
      _ = countSub ('<' :: q) (l' ++ r) := by rw [hc]; simp
      _ = countSub ('<' :: q) r := ih (fun hm => hl (List.mem_cons_of_mem c hm))

theorem countSub_flatten (q : List Char) (toks : List (List Char))
    (hg : ∀ t ∈ toks, ∃ t', t = '<' :: t' ∧ '<' ∉ t')
    (hc : ∀ t ∈ toks,
      ('<' :: q).isPrefixOf t = true ∨ ∀ r, ('<' :: q).isPrefixOf (t ++ r) = false) :
    countSub ('<' :: q) toks.flatten = toks.countP (fun t => ('<' :: q).isPrefixOf t) := by
  induction toks with
  | nil => rfl
  | cons t ts ih =>
    obtain ⟨t', rfl, ht'⟩ := hg t (List.mem_cons_self t ts)
    have hstep : countSub ('<' :: q) (('<' :: t') ++ ts.flatten) =
        (if ('<' :: q).isPrefixOf (('<' :: t') ++ ts.flatten) then 1 else 0) +
          countSub ('<' :: q) ts.flatten := by
      calc countSub ('<' :: q) (('<' :: t') ++ ts.flatten)
          = (if ('<' :: q).isPrefixOf (('<' :: t') ++ ts.flatten) then 1 else 0) +
              countSub ('<' :: q) (t' ++ ts.flatten) := rfl
        _ = _ := by rw [countSub_skip t' ts.flatten ht']
    rw [List.flatten_cons, hstep, List.countP_cons]
    have hrest := ih (fun u hu => hg u (List.mem_cons_of_mem _ hu))
      (fun u hu => hc u (List.mem_cons_of_mem _ hu))
    rcases hc _ (List.mem_cons_self ('<' :: t') ts) with hp | hp
    · rw [isPrefixOf_append_of _ hp, hp, hrest]
      simp [Nat.add_comm]
    · have h0 : ('<' :: q).isPrefixOf ('<' :: t') = false := by
        have h1 := hp []
        rwa [List.append_nil] at h1
      rw [hp ts.flatten, h0, hrest]
      simp

theorem countP_all_true {α : Type} (p : α → Bool) (l : List α)
    (h : ∀ a ∈ l, p a = true) : l.countP p = l.length := by
  induction l with
  | nil => rfl
  | cons a l' ih =>
    rw [List.countP_cons, h a (List.mem_cons_self a l'),
      ih (fun b hb => h b (List.mem_cons_of_mem a hb))]
    simp [Nat.add_comm]

/-! ### Tokenisation of the document

For the counting arguments the fixed pieces are refined into single tags: the
`defs` write consists of three tags, everything else is already a single tag.
-/

def defsOpen : List Char := "<defs>".data

def defsRect : List Char := "<rect id=\"l\" width=\"400\" height=\"1\" fill=\"white\"/>".data

def defsEnd : List Char := "</defs>".data

theorem svgDefs_split : svgDefs = defsOpen ++ defsRect ++ defsEnd := by decide

def preToks : List (List Char) := [svgHeader, defsOpen, defsRect, defsEnd, svgBg]

theorem pre_flatten : preToks.flatten = svgHeader ++ svgDefs ++ svgBg := by
  simp [preToks, svgDefs_split, List.append_assoc]

/-- The `<use` pattern counted by the tests (`/<use/g`). -/
def usePat : List Char := "<use".data

theorem digit_mem : ∀ d, d < 10 → Nat.digitChar d ∈ "0123456789".data := by decide

theorem decDigits_no_lt (y : Nat) : '<' ∉ decDigits y := by
  intro hm
  obtain ⟨d, hd, hdc⟩ := decDigits_mem y '<' hm
  have h2 := digit_mem d hd
  rw [← hdc] at h2
  exact absurd h2 (by decide)

theorem lineTok_shape (y : Nat) :
    lineTok y = '<' :: (lineOpen.tail ++ (decDigits y ++ lineClose)) := by
  unfold lineTok
  have h : lineOpen = '<' :: lineOpen.tail := by decide
  conv_lhs => rw [h]
  simp [List.append_assoc]

theorem lineTok_good (y : Nat) : ∃ t', lineTok y = '<' :: t' ∧ '<' ∉ t' := by
  refine ⟨_, lineTok_shape y, ?_⟩
  intro hm
  rcases List.mem_append.mp hm with hm | hm
  · exact absurd hm (by decide)
  · rcases List.mem_append.mp hm with hm | hm
    · exact decDigits_no_lt y hm
    · exact absurd hm (by decide)

theorem usePat_pfx_lineTok (y : Nat) : usePat.isPrefixOf (lineTok y) = true := by
  unfold lineTok
  rw [List.append_assoc]
  exact isPrefixOf_append_of _ (by decide)

theorem whiteRect_not_pfx_lineTok (y : Nat) (r : List Char) :
    whiteRect.isPrefixOf (lineTok y ++ r) = false := by
  unfold lineTok
  rw [List.append_assoc, List.append_assoc]
  exact isPrefixOf_append_false lineOpen (by decide) _

theorem concrete_good {t : List Char} (h1 : t.head? = some '<') (h2 : '<' ∉ t.tail) :
    ∃ t', t = '<' :: t' ∧ '<' ∉ t' := by
  match t with
  | [] => simp at h1
  | c :: ts =>
    simp only [List.head?_cons, Option.some_inj] at h1
    exact ⟨ts, by rw [h1], h2⟩

theorem toks_good (ys : List Nat) :
    ∀ t ∈ preToks ++ ys.map lineTok ++ [svgFoot], ∃ t', t = '<' :: t' ∧ '<' ∉ t' := by
  intro t ht
  rcases List.mem_append.mp ht with ht | ht
  · rcases List.mem_append.mp ht with ht | ht
    · fin_cases ht <;> exact concrete_good (by decide) (by decide)
    · obtain ⟨y, _, rfl⟩ := List.mem_map.mp ht
      exact lineTok_good y
  · simp only [List.mem_singleton] at ht
    subst ht
    exact concrete_good (by decide) (by decide)

theorem use_hc (ys : List Nat) :
    ∀ t ∈ preToks ++ ys.map lineTok ++ [svgFoot],
      usePat.isPrefixOf t = true ∨ ∀ r, usePat.isPrefixOf (t ++ r) = false := by
  intro t ht
  rcases List.mem_append.mp ht with ht | ht
  · rcases List.mem_append.mp ht with ht | ht
    · fin_cases ht <;> exact Or.inr (fun r => isPrefixOf_append_false _ (by decide) r)
    · obtain ⟨y, _, rfl⟩ := List.mem_map.mp ht
      exact Or.inl (usePat_pfx_lineTok y)
  · simp only [List.mem_singleton] at ht
    subst ht
    exact Or.inr (fun r => isPrefixOf_append_false _ (by decide) r)

theorem whiteRect_hc (ys : List Nat) :
    ∀ t ∈ preToks ++ ys.map lineTok ++ [svgFoot],
      whiteRect.isPrefixOf t = true ∨ ∀ r, whiteRect.isPrefixOf (t ++ r) = false := by
  intro t ht
  rcases List.mem_append.mp ht with ht | ht
  · rcases List.mem_append.mp ht with ht | ht
    · fin_cases ht <;> exact Or.inr (fun r => isPrefixOf_append_false _ (by decide) r)
    · obtain ⟨y, _, rfl⟩ := List.mem_map.mp ht
      exact Or.inr (whiteRect_not_pfx_lineTok y)
  · simp only [List.mem_singleton] at ht
    subst ht
    exact Or.inr (fun r => isPrefixOf_append_false _ (by decide) r)

theorem linYs_length (L : Nat) : (linYs L).length = L := by
  unfold linYs
  by_cases h : (L == 2) = true
  · simp at h
    simp [h]
  · simp [h]

theorem easeYs_length (L : Nat) : (easeYs L).length = L := by
  unfold easeYs
  by_cases h : (L == 2) = true
  · simp at h
    simp [h]
  · simp [h]

/-! ### Bridging the written document to its token list -/

set_option maxRecDepth 4000 in
theorem lin_flatten (n : Nat) :
    HereForNowRenderer.generateSVGChars n =
      (preToks ++ (linYs (2 + n)).map lineTok ++ [svgFoot]).flatten := by
  by_cases h0 : n = 0
  · subst h0
    decide
  · have hne : ¬ ((2 + n : Nat) == 2) = true := by simp; omega
    simp only [HereForNowRenderer.generateSVGChars, linYs, if_neg hne]
    simp only [List.flatten_append, List.flatten_cons, List.flatten_nil, List.append_nil,
      List.map_map, Function.comp_def, pre_flatten, List.append_assoc]

set_option maxRecDepth 4000 in
theorem ease_flatten (n : Nat) (hT : 2 + n < 599) :
    HereForNowRendererEase.generateSVGChars n =
      (preToks ++ (easeYs (2 + n)).map lineTok ++ [svgFoot]).flatten := by
  have hT' : ¬ 599 ≤ 2 + n := by omega
  by_cases h0 : n = 0
  · subst h0
    decide
  · have hne : ¬ ((2 + n : Nat) == 2) = true := by simp; omega
    simp only [HereForNowRendererEase.generateSVGChars, easeYs, if_neg hT', if_neg hne]
    simp only [List.flatten_append, List.flatten_cons, List.flatten_nil, List.append_nil,
      List.map_map, Function.comp_def, pre_flatten, List.append_assoc]

theorem ease_const_above (n : Nat) (hT : 599 ≤ 2 + n) :
    HereForNowRendererEase.generateSVGChars n = HereForNowRendererEase.generateSVGChars 597 := by
  simp only [HereForNowRendererEase.generateSVGChars]
  rw [if_pos hT, if_pos (by omega : (599 : Nat) ≤ 2 + 597)]

/-! ### Element counts -/

theorem count_use_toks (ys : List Nat) :
    countSub usePat (preToks ++ ys.map lineTok ++ [svgFoot]).flatten = ys.length := by
  rw [show usePat = '<' :: "use".data from rfl]
  rw [countSub_flatten _ _ (toks_good ys) (use_hc ys)]
  rw [List.countP_append, List.countP_append]
  have h1 : List.countP (fun t => ('<' :: "use".data).isPrefixOf t) preToks = 0 := by decide
  have h2 : List.countP (fun t => ('<' :: "use".data).isPrefixOf t) [svgFoot] = 0 := by decide
  have h3 : List.countP (fun t => ('<' :: "use".data).isPrefixOf t) (ys.map lineTok) =
      ys.length := by
    rw [countP_all_true]
    · exact List.length_map ys lineTok
    · intro t ht
      obtain ⟨y, _, rfl⟩ := List.mem_map.mp ht
      exact usePat_pfx_lineTok y
  rw [h1, h2, h3]
  omega

theorem count_wr_toks (ys : List Nat) :
    countSub whiteRect (preToks ++ ys.map lineTok ++ [svgFoot]).flatten = 0 := by
  rw [show whiteRect =
    '<' :: "rect x=\"300\" y=\"200\" width=\"400\" height=\"600\" fill=\"white\"/>".data from rfl]
  rw [countSub_flatten _ _ (toks_good ys) (whiteRect_hc ys)]
  apply List.countP_eq_zero.mpr
  intro t ht
  rcases List.mem_append.mp ht with ht | ht
  · rcases List.mem_append.mp ht with ht | ht
    · fin_cases ht <;> decide
    · obtain ⟨y, _, rfl⟩ := List.mem_map.mp ht
      intro hcon
      have h := whiteRect_not_pfx_lineTok y []
      rw [List.append_nil] at h
      have h' : ('<' ::
          "rect x=\"300\" y=\"200\" width=\"400\" height=\"600\" fill=\"white\"/>".data).isPrefixOf
            (lineTok y) = false := h
      simp only [h'] at hcon
      exact Bool.false_ne_true hcon
  · simp only [List.mem_singleton] at ht
    subst ht
    decide

theorem linYs_mem {L : Nat} (hL : 2 ≤ L) : ∀ y ∈ linYs L, 200 ≤ y ∧ y ≤ 799 := by
  intro y hy
  unfold linYs at hy
  by_cases h : (L == 2) = true
  · rw [if_pos h] at hy
    rcases List.mem_pair.mp hy with rfl | rfl <;> omega
  · rw [if_neg h] at hy
    obtain ⟨i, hi, rfl⟩ := List.mem_map.mp hy
    have hiL : i < L := List.mem_range.mp hi
    have hd : 0 < L - 1 := by omega
    exact ⟨linY_ge _ _, linY_le hd (by omega)⟩

theorem lineTok_length {y : Nat} (h1 : 100 ≤ y) (h2 : y < 1000) : (lineTok y).length = 32 := by
  unfold lineTok
  rw [List.length_append, List.length_append, decDigits_len3 h1 h2]
  decide

theorem lin_svg_length (n : Nat) :
    (HereForNowRenderer.generateSVGChars n).length = 285 + 32 * n := by
  rw [lin_flatten, List.length_flatten]
  rw [List.map_append, List.map_append, List.sum_append, List.sum_append]
  have hpre : (preToks.map List.length).sum = 215 := by decide
  have hfoot : (([svgFoot] : List (List Char)).map List.length).sum = 6 := by decide
  have hys : (((linYs (2 + n)).map lineTok).map List.length).sum = 32 * (2 + n) := by
    have hrepl : ((linYs (2 + n)).map lineTok).map List.length =
        List.replicate (2 + n) 32 := by
      rw [List.map_map]
      apply List.eq_replicate_iff.mpr
      constructor
      · simp [linYs_length]
      · intro b hb
        obtain ⟨y, hy, rfl⟩ := List.mem_map.mp hb
        have hbnd := linYs_mem (by omega : 2 ≤ 2 + n) y hy
        exact lineTok_length (by omega) (by omega)
    rw [hrepl, List.sum_replicate, smul_eq_mul]
    ring
  rw [hpre, hfoot, hys]
  omega

/-! ### Claim theorems C1 and C4 -/

set_option maxRecDepth 40000 in
theorem use_count_at_597 :
    countSub usePat (HereForNowRendererEase.generateSVGChars 597) = 0 := by decide

set_option maxRecDepth 40000 in
theorem wr_count_at_597 :
    countSub whiteRect (HereForNowRendererEase.generateSVGChars 597) = 1 := by decide

/-- Claim C1: below the solid-fill threshold `T = 599` the ease-out revision's
SVG contains exactly `presenceCount + 2` occurrences of the `<use` element
pattern and no solid white rectangle; at or above the threshold it contains
exactly one solid white rectangle
(`<rect x="300" y="200" width="400" height="600" fill="white"/>`), no `<use`
elements, and the whole document is a constant string (a hard branch with no
per-line computation). -/
theorem solid_fill_threshold (n : Nat) :
    (2 + n < 599 →
      countSub usePat (HereForNowRendererEase.generateSVG n).data = 2 + n ∧
      countSub whiteRect (HereForNowRendererEase.generateSVG n).data = 0) ∧
    (599 ≤ 2 + n →
      countSub usePat (HereForNowRendererEase.generateSVG n).data = 0 ∧
      countSub whiteRect (HereForNowRendererEase.generateSVG n).data = 1 ∧
      HereForNowRendererEase.generateSVG n = HereForNowRendererEase.generateSVG 597) := by
  have hdata : (HereForNowRendererEase.generateSVG n).data =
      HereForNowRendererEase.generateSVGChars n := rfl
  constructor
  · intro hT
    rw [hdata, ease_flatten n hT]
    exact ⟨by rw [count_use_toks]; exact easeYs_length _, count_wr_toks _⟩
  · intro hT
    have hconst : HereForNowRendererEase.generateSVG n =
        HereForNowRendererEase.generateSVG 597 :=
      congrArg String.mk (ease_const_above n hT)
    refine ⟨?_, ?_, hconst⟩
    · rw [hdata, ease_const_above n hT]
      exact use_count_at_597
    · rw [hdata, ease_const_above n hT]
      exact wr_count_at_597

/-- Witness for C1 at `presenceCount = 0` (below threshold) and
`presenceCount = 597` (at threshold). -/
theorem solid_fill_threshold_witness :
    (countSub usePat (HereForNowRendererEase.generateSVG 0).data = 2 + 0 ∧
     countSub whiteRect (HereForNowRendererEase.generateSVG 0).data = 0) ∧
    (countSub usePat (HereForNowRendererEase.generateSVG 597).data = 0 ∧
     countSub whiteRect (HereForNowRendererEase.generateSVG 597).data = 1 ∧
     HereForNowRendererEase.generateSVG 597 = HereForNowRendererEase.generateSVG 597) :=
  ⟨(solid_fill_threshold 0).1 (by omega), (solid_fill_threshold 597).2 (by omega)⟩

/-- Claim C4 is false of the code: the linear revision writes
`215 + 32·totalLines + 6 = 285 + 32·presenceCount` bytes (the header is 215
bytes and every line element is exactly 32 bytes), strictly more than the
precomputed capacity `bufferSize = 270 + 30·presenceCount`, for every
`presenceCount`.  The string writes therefore always run past the end of the
allocated buffer. -/
theorem buffer_size_deficit (n : Nat) :
    (HereForNowRenderer.generateSVG n).length = 285 + 32 * n ∧
    HereForNowRenderer.bufferSize n = 270 + 30 * n ∧
    HereForNowRenderer.bufferSize n < (HereForNowRenderer.generateSVG n).length := by
  have h1 : (HereForNowRenderer.generateSVG n).length = 285 + 32 * n := lin_svg_length n
  refine ⟨h1, ?_, ?_⟩
  · unfold HereForNowRenderer.bufferSize
    ring
  · rw [h1]
    unfold HereForNowRenderer.bufferSize
    omega

/-! ### Base64 (`contracts/lib/Base64.sol`)

The assembly encoder walks the input three bytes at a time; for each group it
loads a word whose low three bytes are the group (bytes past the end of the
freshly allocated, zero-initialised buffer read as zero), extracts four 6-bit
indices with `shr`/`and(.., 0x3F)`, and looks each up in the table.  Finally a
`switch mod(len, 3)` overwrites the last two (resp. one) characters with `=`
when the length is `1` (resp. `2`) mod 3.  Bytes are modelled as `Nat < 256`;
the output is the list of ASCII codes (`61` is the code of `=`).
-/

namespace Base64

def table : List Nat :=
  ("ABCDEFGHIJKLMNOPQRSTUVWXYZabcdefghijklmnopqrstuvwxyz0123456789+/".data).map Char.toNat

/-- Table lookup `mload(add(tablePtr, idx))`, returning the byte at `idx`. -/
def tableByte (i : Nat) : Nat := table.getD i 0

/-- One 3-byte group: the four written characters are the table entries at
`(w >> 18) & 0x3F`, `(w >> 12) & 0x3F`, `(w >> 6) & 0x3F`, `w & 0x3F` where
`w` is the 24-bit group value. -/
def encode3 (a b c : Nat) : List Nat :=
  let w := a * 65536 + b * 256 + c
  [tableByte (w / 262144 % 64), tableByte (w / 4096 % 64),
   tableByte (w / 64 % 64), tableByte (w % 64)]

/-- The main loop: three input bytes per iteration; a trailing partial group
reads zeroes past the end of the input buffer. -/
def encodeChunks : List Nat → List Nat
  | a :: b :: c :: rest => encode3 a b c ++ encodeChunks rest
  | [a, b] => encode3 a b 0
  | [a] => encode3 a 0 0
  | [] => []

/-- The `switch mod(mload(data), 3)` padding step: case 1 overwrites the last
two characters with `==`, case 2 overwrites the last character with `=`. -/
def pad (e : List Nat) : Nat → List Nat
  | 1 => e.take (e.length - 2) ++ [61, 61]
  | 2 => e.take (e.length - 1) ++ [61]
  | _ => e

/-- `Base64.encode`: encode all 3-byte groups, then apply the padding switch.
The empty input yields the empty output (the Solidity early return). -/
def encode (data : List Nat) : List Nat := pad (encodeChunks data) (data.length % 3)

end Base64

/-! Reference decoder, modelled from the spec (§4.4: standard RFC 4648 with
`=` padding): strip padding, map each character back to its 6-bit index, and
reassemble bytes — 4 characters to 3 bytes, 3 to 2, 2 to 1. -/

def b64Val (x : Nat) : Nat := Base64.table.indexOf x

def decodeChunks : List Nat → List Nat
  | a :: b :: c :: d :: rest =>
    let w := b64Val a * 262144 + b64Val b * 4096 + b64Val c * 64 + b64Val d
    w / 65536 :: (w / 256) % 256 :: w % 256 :: decodeChunks rest
  | [a, b, c] =>
    let w := b64Val a * 4096 + b64Val b * 64 + b64Val c
    [w / 1024, (w / 4) % 256]
  | [a, b] => [(b64Val a * 64 + b64Val b) / 16]
  | _ => []

def b64decode (s : List Nat) : List Nat := decodeChunks (s.filter (fun x => x != 61))

theorem b64Val_tableByte : ∀ i, i < 64 → b64Val (Base64.tableByte i) = i := by decide

theorem tableByte_ne_61 : ∀ i, i < 64 → Base64.tableByte i ≠ 61 := by decide

theorem encode3_no_pad {a b c : Nat} : ∀ x ∈ Base64.encode3 a b c, (x != 61) = true := by
  intro x hx
  simp only [Base64.encode3, List.mem_cons, List.not_mem_nil, or_false] at hx
  rcases hx with rfl | rfl | rfl | rfl <;>
    exact bne_iff_ne.mpr (tableByte_ne_61 _ (Nat.mod_lt _ (by omega)))

theorem filter_encode3 {a b c : Nat} :
    (Base64.encode3 a b c).filter (fun x => x != 61) = Base64.encode3 a b c :=
  List.filter_eq_self.mpr encode3_no_pad

theorem encodeChunks_len {data : List Nat} (h : data ≠ []) :
    4 ≤ (Base64.encodeChunks data).length := by
  match data with
  | [] => exact absurd rfl h
  | [a] => simp [Base64.encodeChunks, Base64.encode3]
  | [a, b] => simp [Base64.encodeChunks, Base64.encode3]
  | a :: b :: c :: rest =>
    simp only [Base64.encodeChunks, List.length_append]
    have : (Base64.encode3 a b c).length = 4 := by simp [Base64.encode3]
    omega

theorem pad_append (x e : List Nat) (r : Nat) (hx : x.length = 4)
    (he : 2 ≤ e.length) : Base64.pad (x ++ e) r = x ++ Base64.pad e r := by
  match r with
  | 0 => rfl
  | 1 =>
    simp only [Base64.pad, List.length_append, hx]
    rw [show 4 + e.length - 2 = x.length + (e.length - 2) by omega]
    rw [List.take_append_eq_append_take, List.take_of_length_le (by omega),
      show x.length + (e.length - 2) - x.length = e.length - 2 by omega,
      List.append_assoc]
  | 2 =>
    simp only [Base64.pad, List.length_append, hx]
    rw [show 4 + e.length - 1 = x.length + (e.length - 1) by omega]
    rw [List.take_append_eq_append_take, List.take_of_length_le (by omega),
      show x.length + (e.length - 1) - x.length = e.length - 1 by omega,
      List.append_assoc]
  | (n+3) => rfl

theorem decode_encode_bounded :
    ∀ N, ∀ data : List Nat, data.length ≤ N → (∀ x ∈ data, x < 256) →
      b64decode (Base64.encode data) = data := by
  intro N
  induction N with
  | zero =>
    intro data hlen _
    have hnil : data = [] := List.eq_nil_of_length_eq_zero (by omega)
    subst hnil
    rfl
  | succ N ih =>
    intro data hlen h
    match data with
    | [] => rfl
    | [a] =>
      have ha : a < 256 := h a (by simp)
      have h0 : (Base64.tableByte ((a * 65536 + 0 * 256 + 0) / 262144 % 64) != 61) = true :=
        bne_iff_ne.mpr (tableByte_ne_61 _ (Nat.mod_lt _ (by omega)))
      have h1 : (Base64.tableByte ((a * 65536 + 0 * 256 + 0) / 4096 % 64) != 61) = true :=
        bne_iff_ne.mpr (tableByte_ne_61 _ (Nat.mod_lt _ (by omega)))
      have hshape : Base64.encode [a] =
          [Base64.tableByte ((a * 65536 + 0 * 256 + 0) / 262144 % 64),
           Base64.tableByte ((a * 65536 + 0 * 256 + 0) / 4096 % 64), 61, 61] := rfl
      show decodeChunks ((Base64.encode [a]).filter (fun x => x != 61)) = [a]
      rw [hshape]
      simp only [List.filter_cons, h0, h1, if_true, bne_self_eq_false, if_false,
        List.filter_nil]
      show [(b64Val (Base64.tableByte ((a * 65536 + 0 * 256 + 0) / 262144 % 64)) * 64 +
        b64Val (Base64.tableByte ((a * 65536 + 0 * 256 + 0) / 4096 % 64))) / 16] = [a]
      rw [b64Val_tableByte _ (Nat.mod_lt _ (by omega)),
        b64Val_tableByte _ (Nat.mod_lt _ (by omega))]
      simp only [List.cons.injEq, and_true]
      omega
    | [a, b] =>
      have ha : a < 256 := h a (by simp)
      have hb : b < 256 := h b (by simp)
      have h0 : (Base64.tableByte ((a * 65536 + b * 256 + 0) / 262144 % 64) != 61) = true :=
        bne_iff_ne.mpr (tableByte_ne_61 _ (Nat.mod_lt _ (by omega)))
      have h1 : (Base64.tableByte ((a * 65536 + b * 256 + 0) / 4096 % 64) != 61) = true :=
        bne_iff_ne.mpr (tableByte_ne_61 _ (Nat.mod_lt _ (by omega)))
      have h2 : (Base64.tableByte ((a * 65536 + b * 256 + 0) / 64 % 64) != 61) = true :=
        bne_iff_ne.mpr (tableByte_ne_61 _ (Nat.mod_lt _ (by omega)))
      have hshape : Base64.encode [a, b] =
          [Base64.tableByte ((a * 65536 + b * 256 + 0) / 262144 % 64),
           Base64.tableByte ((a * 65536 + b * 256 + 0) / 4096 % 64),
           Base64.tableByte ((a * 65536 + b * 256 + 0) / 64 % 64), 61] := rfl
      show decodeChunks ((Base64.encode [a, b]).filter (fun x => x != 61)) = [a, b]
      rw [hshape]
      simp only [List.filter_cons, h0, h1, h2, if_true, bne_self_eq_false, if_false,
        List.filter_nil]
      show [(b64Val (Base64.tableByte ((a * 65536 + b * 256 + 0) / 262144 % 64)) * 4096 +
        b64Val (Base64.tableByte ((a * 65536 + b * 256 + 0) / 4096 % 64)) * 64 +
        b64Val (Base64.tableByte ((a * 65536 + b * 256 + 0) / 64 % 64))) / 1024,
        ((b64Val (Base64.tableByte ((a * 65536 + b * 256 + 0) / 262144 % 64)) * 4096 +
        b64Val (Base64.tableByte ((a * 65536 + b * 256 + 0) / 4096 % 64)) * 64 +
        b64Val (Base64.tableByte ((a * 65536 + b * 256 + 0) / 64 % 64))) / 4) % 256] = [a, b]
      rw [b64Val_tableByte _ (Nat.mod_lt _ (by omega)),
        b64Val_tableByte _ (Nat.mod_lt _ (by omega)),
        b64Val_tableByte _ (Nat.mod_lt _ (by omega))]
      simp only [List.cons.injEq, and_true]
      constructor
      · omega
      · omega
    | a :: b :: c :: rest =>
      have ha : a < 256 := h a (by simp)
      have hb : b < 256 := h b (by simp)
      have hc : c < 256 := h c (by simp)
      have hmod : (a :: b :: c :: rest).length % 3 = rest.length % 3 := by
        simp [List.length_cons]
        omega
      have henc : Base64.encode (a :: b :: c :: rest) =
          Base64.encode3 a b c ++ Base64.pad (Base64.encodeChunks rest) (rest.length % 3) := by
        unfold Base64.encode
        rw [hmod]
        show Base64.pad (Base64.encode3 a b c ++ Base64.encodeChunks rest) (rest.length % 3) = _
        rcases (show rest.length % 3 = 0 ∨ rest.length % 3 = 1 ∨ rest.length % 3 = 2 by
          omega) with h3 | h3 | h3
        · rw [h3]; rfl
        · have hne : rest ≠ [] := by
            intro hr; rw [hr] at h3; simp at h3
          exact pad_append _ _ _ (by simp [Base64.encode3])
            (le_trans (by omega) (encodeChunks_len hne))
        · have hne : rest ≠ [] := by
            intro hr; rw [hr] at h3; simp at h3
          exact pad_append _ _ _ (by simp [Base64.encode3])
            (le_trans (by omega) (encodeChunks_len hne))
      show decodeChunks ((Base64.encode (a :: b :: c :: rest)).filter (fun x => x != 61)) =
        a :: b :: c :: rest
      rw [henc, List.filter_append, filter_encode3]
      have hih : decodeChunks
          ((Base64.pad (Base64.encodeChunks rest) (rest.length % 3)).filter
            (fun x => x != 61)) = rest :=
        ih rest (by simp at hlen; omega) (fun x hx => h x (by simp [hx]))
      show decodeChunks (Base64.encode3 a b c ++
        (Base64.pad (Base64.encodeChunks rest) (rest.length % 3)).filter (fun x => x != 61)) =
        a :: b :: c :: rest
      have hball : ∀ w : Nat,
          b64Val (Base64.tableByte (w % 64)) = w % 64 :=
        fun w => b64Val_tableByte _ (Nat.mod_lt _ (by omega))
      show (let w := b64Val (Base64.tableByte ((a * 65536 + b * 256 + c) / 262144 % 64)) * 262144 +
              b64Val (Base64.tableByte ((a * 65536 + b * 256 + c) / 4096 % 64)) * 4096 +
              b64Val (Base64.tableByte ((a * 65536 + b * 256 + c) / 64 % 64)) * 64 +
              b64Val (Base64.tableByte ((a * 65536 + b * 256 + c) % 64))
            w / 65536 :: (w / 256) % 256 :: w % 256 ::
              decodeChunks ((Base64.pad (Base64.encodeChunks rest) (rest.length % 3)).filter
                (fun x => x != 61))) = a :: b :: c :: rest
      rw [hball, hball, hball, hball, hih]
      simp only [List.cons.injEq, and_true]
      exact ⟨by omega, by omega, by omega⟩

/-- Claim C7: decoding `Base64.encode x` under standard RFC 4648 base64
(with `=` padding) yields `x` for every byte sequence, covering lengths
congruent to 0, 1 and 2 mod 3; and the empty sequence encodes to the empty
string, not a padding-only string. -/
theorem base64_round_trip :
    (∀ data : List Nat, (∀ x ∈ data, x < 256) → b64decode (Base64.encode data) = data) ∧
    Base64.encode [] = [] :=
  ⟨fun data h => decode_encode_bounded data.length data le_rfl h, rfl⟩

/-- Witness for C7 on inputs of length 3, 1, 2 and 0. -/
theorem base64_round_trip_witness :
    b64decode (Base64.encode [72, 105, 33]) = [72, 105, 33] ∧
    b64decode (Base64.encode [1]) = [1] ∧
    b64decode (Base64.encode [1, 2]) = [1, 2] ∧
    b64decode (Base64.encode []) = [] :=
  ⟨base64_round_trip.1 [72, 105, 33] (by decide), base64_round_trip.1 [1] (by decide),
   base64_round_trip.1 [1, 2] (by decide), base64_round_trip.1 [] (by decide)⟩

/-! ### `_formatEther` (claim C8) -/

namespace HereForNowRenderer

/-- Embeds `_formatEther`: `whole = weiAmount / 1e18`,
`fraction = (weiAmount % 1e18) / 1e14`, fraction left-padded with zeroes by
the four explicit branches of the source, output
`"{whole}.{fraction} ETH"`. -/
def formatEther (weiAmount : Nat) : List Char :=
  let whole := weiAmount / 1000000000000000000
  let fraction := (weiAmount % 1000000000000000000) / 100000000000000
  let fractionStr :=
    if fraction == 0 then "0000".data
    else if fraction < 10 then "000".data ++ decDigits fraction
    else if fraction < 100 then "00".data ++ decDigits fraction
    else if fraction < 1000 then "0".data ++ decDigits fraction
    else decDigits fraction
  decDigits whole ++ ".".data ++ fractionStr ++ " ETH".data

end HereForNowRenderer

theorem pad4_eq (fr : Nat) (h : fr < 10000) :
    (if fr == 0 then "0000".data
     else if fr < 10 then "000".data ++ decDigits fr
     else if fr < 100 then "00".data ++ decDigits fr
     else if fr < 1000 then "0".data ++ decDigits fr
     else decDigits fr) =
    List.replicate (4 - (decDigits fr).length) '0' ++ decDigits fr := by
  by_cases h0 : fr = 0
  · subst h0
    decide
  have hbeq : ¬ (fr == 0) = true := by simp [h0]
  rw [if_neg hbeq]
  by_cases h1 : fr < 10
  · rw [if_pos h1, decDigits_len1 h1]
    exact congrArg (fun z => z ++ decDigits fr) (by decide)
  rw [if_neg h1]
  by_cases h2 : fr < 100
  · rw [if_pos h2, decDigits_len2 (by omega) h2]
    exact congrArg (fun z => z ++ decDigits fr) (by decide)
  rw [if_neg h2]
  by_cases h3 : fr < 1000
  · rw [if_pos h3, decDigits_len3 (by omega) h3]
    exact congrArg (fun z => z ++ decDigits fr) (by decide)
  rw [if_neg h3, decDigits_len4 (by omega) h]
  simp

/-- Claim C8: `_formatEther` renders `"<whole>.<fraction4> ETH"` with
`whole = amount / 10^18`, `fraction4 = (amount mod 10^18) / 10^14`
left-padded with zeroes to exactly four digits — truncation, never rounding —
and in particular `_formatEther(1999999999999999999) = "1.9999 ETH"`,
`_formatEther(0) = "0.0000 ETH"`, `_formatEther(10^18) = "1.0000 ETH"`. -/
theorem format_ether_truncates :
    (∀ w : Nat, HereForNowRenderer.formatEther w =
      decDigits (w / 10 ^ 18) ++ ".".data ++
        (List.replicate (4 - (decDigits ((w % 10 ^ 18) / 10 ^ 14)).length) '0' ++
          decDigits ((w % 10 ^ 18) / 10 ^ 14)) ++ " ETH".data) ∧
    HereForNowRenderer.formatEther 1999999999999999999 = "1.9999 ETH".data ∧
    HereForNowRenderer.formatEther 0 = "0.0000 ETH".data ∧
    HereForNowRenderer.formatEther 1000000000000000000 = "1.0000 ETH".data := by
  refine ⟨?_, by decide, by decide, by decide⟩
  intro w
  have hpow18 : (10 : Nat) ^ 18 = 1000000000000000000 := by norm_num
  have hpow14 : (10 : Nat) ^ 14 = 100000000000000 := by norm_num
  rw [hpow18, hpow14]
  have hfr : (w % 1000000000000000000) / 100000000000000 < 10000 := by
    have hm : w % 1000000000000000000 < 1000000000000000000 := Nat.mod_lt _ (by omega)
    omega
  simp only [HereForNowRenderer.formatEther]
  rw [pad4_eq _ hfr]

/-! ### Byte-level `tokenURI` pipeline (claims C9, C10)

`tokenURI` concatenates string literals, the stored `name` and `description`
(arbitrary byte strings), the base64-encoded SVG, the decimal depositor count
and the formatted balance into a JSON payload, then base64-encodes the payload
behind a `data:application/json;base64,` scheme.  Everything is bytes
(`abi.encodePacked`), so the embedding works on `List Nat`.
-/

def bytesOf (s : String) : List Nat := s.data.map Char.toNat

namespace HereForNowRenderer

/-- Everything of the JSON document after the raw `name` bytes. -/
def jsonTail (desc : List Nat) (activeDepositors totalBalance : Nat) : List Nat :=
  bytesOf "\",\"description\":\"" ++ desc ++
  bytesOf "\",\"image\":\"data:image/svg+xml;base64," ++
  Base64.encode ((generateSVGChars activeDepositors).map Char.toNat) ++
  bytesOf "\",\"attributes\":[\x7b\"trait_type\":\"Present Depositors\",\"value\":" ++
  (decDigits activeDepositors).map Char.toNat ++
  bytesOf "\x7d,\x7b\"trait_type\":\"Total ETH Held\",\"value\":\"" ++
  (formatEther totalBalance).map Char.toNat ++
  bytesOf "\"\x7d]\x7d"

/-- The JSON document built by `tokenURI` (the first `abi.encodePacked`). -/
def jsonPayload (name desc : List Nat) (activeDepositors totalBalance : Nat) : List Nat :=
  bytesOf "\x7b\"name\":\"" ++ name ++ jsonTail desc activeDepositors totalBalance

/-- `tokenURI(activeDepositors, totalBalance)` with the stored `name` and
`description` as explicit byte-string parameters. -/
def tokenURI (name desc : List Nat) (activeDepositors totalBalance : Nat) : List Nat :=
  bytesOf "data:application/json;base64," ++
    Base64.encode (jsonPayload name desc activeDepositors totalBalance)

end HereForNowRenderer

/-! ASCII bounds: every byte the renderer itself produces is below 256. -/

theorem tableByte_lt : ∀ i, Base64.tableByte i < 256 := by
  intro i
  by_cases h : i < 64
  · have h64 : ∀ j, j < 64 → Base64.tableByte j < 256 := by decide
    exact h64 i h
  · unfold Base64.tableByte
    rw [List.getD_eq_default]
    · omega
    · have hlen : Base64.table.length = 64 := by decide
      omega

theorem encode3_lt {a b c : Nat} : ∀ x ∈ Base64.encode3 a b c, x < 256 := by
  intro x hx
  simp only [Base64.encode3, List.mem_cons, List.not_mem_nil, or_false] at hx
  rcases hx with rfl | rfl | rfl | rfl <;> exact tableByte_lt _

theorem encodeChunks_lt_bounded :
    ∀ N, ∀ data : List Nat, data.length ≤ N → ∀ x ∈ Base64.encodeChunks data, x < 256 := by
  intro N
  induction N with
  | zero =>
    intro data hlen x hx
    have hnil : data = [] := List.eq_nil_of_length_eq_zero (by omega)
    subst hnil
    simp [Base64.encodeChunks] at hx
  | succ N ih =>
    intro data hlen x hx
    match data with
    | [] => simp [Base64.encodeChunks] at hx
    | [a] => exact encode3_lt x hx
    | [a, b] => exact encode3_lt x hx
    | a :: b :: c :: rest =>
      rcases List.mem_append.mp hx with hx | hx
      · exact encode3_lt x hx
      · exact ih rest (by simp at hlen; omega) x hx

theorem encode_lt {data : List Nat} : ∀ x ∈ Base64.encode data, x < 256 := by
  intro x hx
  unfold Base64.encode at hx
  have hch : ∀ y ∈ Base64.encodeChunks data, y < 256 :=
    encodeChunks_lt_bounded data.length data le_rfl
  rcases hr : data.length % 3 with _ | _ | _ | k
  all_goals rw [hr] at hx
  · exact hch x hx
  · rcases List.mem_append.mp hx with hx | hx
    · exact hch x (List.take_subset _ _ hx)
    · simp at hx
      omega
  · rcases List.mem_append.mp hx with hx | hx
    · exact hch x (List.take_subset _ _ hx)
    · simp at hx
      omega
  · exact hch x hx

theorem mem_ascii {l : List Char} (hall : l.all (fun c => decide (c.toNat < 256)) = true)
    {c : Char} (hc : c ∈ l) : c.toNat < 256 := by
  have h := List.all_eq_true.mp hall c hc
  simpa using h

theorem digit_ascii : ∀ d, d < 10 → (Nat.digitChar d).toNat < 256 := by decide

theorem decDigits_ascii (y : Nat) : ∀ c ∈ decDigits y, c.toNat < 256 := by
  intro c hc
  obtain ⟨d, hd, rfl⟩ := decDigits_mem y c hc
  exact digit_ascii d hd

theorem formatEther_ascii (w : Nat) : ∀ c ∈ HereForNowRenderer.formatEther w, c.toNat < 256 := by
  intro c hc
  simp only [HereForNowRenderer.formatEther] at hc
  rcases List.mem_append.mp hc with hc | hc
  · rcases List.mem_append.mp hc with hc | hc
    · rcases List.mem_append.mp hc with hc | hc
      · exact decDigits_ascii _ c hc
      · exact mem_ascii (by decide) hc
    · by_cases h0 : ((w % 1000000000000000000) / 100000000000000 == 0) = true
      · rw [if_pos h0] at hc
        exact mem_ascii (by decide) hc
      rw [if_neg h0] at hc
      by_cases h1 : (w % 1000000000000000000) / 100000000000000 < 10
      · rw [if_pos h1] at hc
        rcases List.mem_append.mp hc with hc | hc
        · exact mem_ascii (by decide) hc
        · exact decDigits_ascii _ c hc
      rw [if_neg h1] at hc
      by_cases h2 : (w % 1000000000000000000) / 100000000000000 < 100
      · rw [if_pos h2] at hc
        rcases List.mem_append.mp hc with hc | hc
        · exact mem_ascii (by decide) hc
        · exact decDigits_ascii _ c hc
      rw [if_neg h2] at hc
      by_cases h3 : (w % 1000000000000000000) / 100000000000000 < 1000
      · rw [if_pos h3] at hc
        rcases List.mem_append.mp hc with hc | hc
        · exact mem_ascii (by decide) hc
        · exact decDigits_ascii _ c hc
      rw [if_neg h3] at hc
      exact decDigits_ascii _ c hc
  · exact mem_ascii (by decide) hc

theorem svg_ascii (n : Nat) : ∀ c ∈ HereForNowRenderer.generateSVGChars n, c.toNat < 256 := by
  intro c hc
  rw [lin_flatten] at hc
  obtain ⟨t, ht, hct⟩ := List.mem_flatten.mp hc
  rcases List.mem_append.mp ht with ht | ht
  · rcases List.mem_append.mp ht with ht | ht
    · fin_cases ht <;> exact mem_ascii (by decide) hct
    · obtain ⟨y, _, rfl⟩ := List.mem_map.mp ht
      unfold lineTok at hct
      rcases List.mem_append.mp hct with hct | hct
      · rcases List.mem_append.mp hct with hct | hct
        · exact mem_ascii (by decide) hct
        · exact decDigits_ascii _ c hct
      · exact mem_ascii (by decide) hct
  · simp only [List.mem_singleton] at ht
    subst ht
    exact mem_ascii (by decide) hct

theorem bytesOf_lt (s : String) (h : s.data.all (fun c => decide (c.toNat < 256)) = true) :
    ∀ x ∈ bytesOf s, x < 256 := by
  intro x hx
  obtain ⟨c, hc, rfl⟩ := List.mem_map.mp hx
  exact mem_ascii h hc

theorem map_toNat_lt {l : List Char} (h : ∀ c ∈ l, c.toNat < 256) :
    ∀ x ∈ l.map Char.toNat, x < 256 := by
  intro x hx
  obtain ⟨c, hc, rfl⟩ := List.mem_map.mp hx
  exact h c hc

theorem jsonPayload_lt (name desc : List Nat) (n bal : Nat)
    (hn : ∀ x ∈ name, x < 256) (hd : ∀ x ∈ desc, x < 256) :
    ∀ x ∈ HereForNowRenderer.jsonPayload name desc n bal, x < 256 := by
  unfold HereForNowRenderer.jsonPayload HereForNowRenderer.jsonTail
  simp only [List.append_assoc]
  refine List.forall_mem_append.mpr ⟨bytesOf_lt _ (by decide), ?_⟩
  refine List.forall_mem_append.mpr ⟨hn, ?_⟩
  refine List.forall_mem_append.mpr ⟨bytesOf_lt _ (by decide), ?_⟩
  refine List.forall_mem_append.mpr ⟨hd, ?_⟩
  refine List.forall_mem_append.mpr ⟨bytesOf_lt _ (by decide), ?_⟩
  refine List.forall_mem_append.mpr ⟨encode_lt, ?_⟩
  refine List.forall_mem_append.mpr ⟨bytesOf_lt _ (by decide), ?_⟩
  refine List.forall_mem_append.mpr ⟨map_toNat_lt (decDigits_ascii n), ?_⟩
  refine List.forall_mem_append.mpr ⟨bytesOf_lt _ (by decide), ?_⟩
  refine List.forall_mem_append.mpr ⟨map_toNat_lt (formatEther_ascii bal), ?_⟩
  exact bytesOf_lt _ (by decide)

theorem tokenURI_drop29 (name desc : List Nat) (n bal : Nat) :
    (HereForNowRenderer.tokenURI name desc n bal).drop 29 =
      Base64.encode (HereForNowRenderer.jsonPayload name desc n bal) := by
  unfold HereForNowRenderer.tokenURI
  rw [show (29 : Nat) = (bytesOf "data:application/json;base64,").length from by decide]
  exact List.drop_left _ _

/-- Claim C9: `tokenURI` is the string `data:application/json;base64,`
followed by the base64 encoding of the JSON payload; base64-decoding the part
after that scheme yields the payload; the payload's `image` field is exactly
`data:image/svg+xml;base64,` followed by the base64 encoding of
`generateSVG(presenceCount)`; and the attributes carry the presence count as a
bare (unquoted) number. -/
theorem token_uri_structure (name desc : List Nat) (n bal : Nat)
    (hname : ∀ x ∈ name, x < 256) (hdesc : ∀ x ∈ desc, x < 256) :
    HereForNowRenderer.tokenURI name desc n bal =
      bytesOf "data:application/json;base64," ++
        Base64.encode (HereForNowRenderer.jsonPayload name desc n bal) ∧
    b64decode ((HereForNowRenderer.tokenURI name desc n bal).drop 29) =
      HereForNowRenderer.jsonPayload name desc n bal ∧
    (bytesOf "\"image\":\"data:image/svg+xml;base64," ++
        Base64.encode ((HereForNowRenderer.generateSVGChars n).map Char.toNat) ++
        bytesOf "\"") <:+:
      HereForNowRenderer.jsonPayload name desc n bal ∧
    (bytesOf "\"value\":" ++ (decDigits n).map Char.toNat ++ bytesOf "\x7d") <:+:
      HereForNowRenderer.jsonPayload name desc n bal := by
  refine ⟨rfl, ?_, ?_, ?_⟩
  · rw [tokenURI_drop29]
    exact decode_encode_bounded _ _ le_rfl (jsonPayload_lt name desc n bal hname hdesc)
  · refine ⟨bytesOf "\x7b\"name\":\"" ++ name ++ bytesOf "\",\"description\":\"" ++ desc ++
      bytesOf "\",",
      bytesOf ",\"attributes\":[\x7b\"trait_type\":\"Present Depositors\",\"value\":" ++
        (decDigits n).map Char.toNat ++
        bytesOf "\x7d,\x7b\"trait_type\":\"Total ETH Held\",\"value\":\"" ++
        (HereForNowRenderer.formatEther bal).map Char.toNat ++ bytesOf "\"\x7d]\x7d", ?_⟩
    simp only [HereForNowRenderer.jsonPayload, HereForNowRenderer.jsonTail]
    rw [show bytesOf "\",\"image\":\"data:image/svg+xml;base64," =
      bytesOf "\"," ++ bytesOf "\"image\":\"data:image/svg+xml;base64," from by decide]
    rw [show bytesOf "\",\"attributes\":[\x7b\"trait_type\":\"Present Depositors\",\"value\":" =
      bytesOf "\"" ++
        bytesOf ",\"attributes\":[\x7b\"trait_type\":\"Present Depositors\",\"value\":"
      from by decide]
    simp [List.append_assoc]
  · refine ⟨bytesOf "\x7b\"name\":\"" ++ name ++ bytesOf "\",\"description\":\"" ++ desc ++
      bytesOf "\",\"image\":\"data:image/svg+xml;base64," ++
      Base64.encode ((HereForNowRenderer.generateSVGChars n).map Char.toNat) ++
      bytesOf "\",\"attributes\":[\x7b\"trait_type\":\"Present Depositors\",",
      bytesOf ",\x7b\"trait_type\":\"Total ETH Held\",\"value\":\"" ++
        (HereForNowRenderer.formatEther bal).map Char.toNat ++ bytesOf "\"\x7d]\x7d", ?_⟩
    simp only [HereForNowRenderer.jsonPayload, HereForNowRenderer.jsonTail]
    rw [show bytesOf "\",\"attributes\":[\x7b\"trait_type\":\"Present Depositors\",\"value\":" =
      bytesOf "\",\"attributes\":[\x7b\"trait_type\":\"Present Depositors\"," ++
        bytesOf "\"value\":" from by decide]
    rw [show bytesOf "\x7d,\x7b\"trait_type\":\"Total ETH Held\",\"value\":\"" =
      bytesOf "\x7d" ++ bytesOf ",\x7b\"trait_type\":\"Total ETH Held\",\"value\":\""
      from by decide]
    simp [List.append_assoc]

/-- Witness for C9 at `name = "A"`, `description = "B"`,
`presenceCount = 0`, `totalBalance = 0`. -/
theorem token_uri_structure_witness :
    HereForNowRenderer.tokenURI [65] [66] 0 0 =
      bytesOf "data:application/json;base64," ++
        Base64.encode (HereForNowRenderer.jsonPayload [65] [66] 0 0) ∧
    b64decode ((HereForNowRenderer.tokenURI [65] [66] 0 0).drop 29) =
      HereForNowRenderer.jsonPayload [65] [66] 0 0 ∧
    (bytesOf "\"image\":\"data:image/svg+xml;base64," ++
        Base64.encode ((HereForNowRenderer.generateSVGChars 0).map Char.toNat) ++
        bytesOf "\"") <:+:
      HereForNowRenderer.jsonPayload [65] [66] 0 0 ∧
    (bytesOf "\"value\":" ++ (decDigits 0).map Char.toNat ++ bytesOf "\x7d") <:+:
      HereForNowRenderer.jsonPayload [65] [66] 0 0 :=
  token_uri_structure [65] [66] 0 0 (by decide) (by decide)

/-! ### JSON well-formedness (claim C10)

Modelled from the spec: §4.6/§9 call the raw concatenation of caller-supplied
strings into the JSON document a correctness gap, the document being no longer
well-formed JSON when the strings contain quotes.  `jsonValid` is a
fuel-indexed recursive-descent validator for RFC 8259 JSON texts over ASCII
bytes (strings with the standard escapes, lenient numbers, objects, arrays,
`true`/`false`/`null`), used on concrete documents only.
-/

def skipWs : List Nat → List Nat
  | c :: r => if c == 32 || c == 9 || c == 10 || c == 13 then skipWs r else c :: r
  | [] => []

def isHexDigit (c : Nat) : Bool :=
  (48 ≤ c && c ≤ 57) || (65 ≤ c && c ≤ 70) || (97 ≤ c && c ≤ 102)

def isNumChar (c : Nat) : Bool :=
  (48 ≤ c && c ≤ 57) || c == 43 || c == 45 || c == 46 || c == 101 || c == 69

/-- Scan a JSON string body after the opening quote; returns the rest after
the closing quote. -/
def parseStringBody : List Nat → Option (List Nat)
  | [] => none
  | 34 :: r => some r
  | 92 :: e :: r =>
    if e == 34 || e == 92 || e == 47 || e == 98 || e == 102 || e == 110 ||
        e == 114 || e == 116 then
      parseStringBody r
    else if e == 117 then
      match r with
      | h1 :: h2 :: h3 :: h4 :: r' =>
        if isHexDigit h1 && isHexDigit h2 && isHexDigit h3 && isHexDigit h4 then
          parseStringBody r'
        else none
      | _ => none
    else none
  | c :: r => if 32 ≤ c then parseStringBody r else none

inductive JMode where
  | val : JMode
  | members : JMode
  | items : JMode

/-- Fuel-indexed recursive-descent JSON parser; returns the unconsumed rest. -/
def parseJ : Nat → JMode → List Nat → Option (List Nat)
  | 0, _, _ => none
  | fuel+1, JMode.val, s =>
    match skipWs s with
    | [] => none
    | c :: r =>
      if c == 34 then parseStringBody r
      else if c == 123 then
        match skipWs r with
        | 125 :: r' => some r'
        | r' => parseJ fuel JMode.members r'
      else if c == 91 then
        match skipWs r with
        | 93 :: r' => some r'
        | r' => parseJ fuel JMode.items r'
      else if c == 116 then
        match r with
        | 114 :: 117 :: 101 :: r' => some r'
        | _ => none
      else if c == 102 then
        match r with
        | 97 :: 108 :: 115 :: 101 :: r' => some r'
        | _ => none
      else if c == 110 then
        match r with
        | 117 :: 108 :: 108 :: r' => some r'
        | _ => none
      else if isNumChar c then some ((c :: r).dropWhile isNumChar)
      else none
  | fuel+1, JMode.members, s =>
    match skipWs s with
    | 34 :: r =>
      match parseStringBody r with
      | none => none
      | some r1 =>
        match skipWs r1 with
        | 58 :: r2 =>
          match parseJ fuel JMode.val r2 with
          | none => none
          | some r3 =>
            match skipWs r3 with
            | 44 :: r4 => parseJ fuel JMode.members r4
            | 125 :: r4 => some r4
            | _ => none
        | _ => none
    | _ => none
  | fuel+1, JMode.items, s =>
    match parseJ fuel JMode.val s with
    | none => none
    | some r1 =>
      match skipWs r1 with
      | 44 :: r2 => parseJ fuel JMode.items r2
      | 93 :: r2 => some r2
      | _ => none

/-- A byte string is a well-formed JSON text when one value parses and only
whitespace remains. -/
def jsonValid (s : List Nat) : Bool :=
  match parseJ (s.length + 1) JMode.val s with
  | some r => skipWs r == []
  | none => false

set_option maxRecDepth 100000 in
theorem json_sanity_small : jsonValid (bytesOf "\x7b\"a\":1,\"b\":\"x\"\x7d") = true := by decide

set_option maxRecDepth 100000 in
theorem json_sanity_bad : jsonValid (bytesOf "\x7b\"a\":\"\"\",\"b\":1\x7d") = false := by decide

set_option maxRecDepth 1000000 in
theorem jsonValid_quote_name_payload :
    jsonValid (HereForNowRenderer.jsonPayload [34] [] 0 0) = false := by decide

set_option maxRecDepth 1000000 in
theorem jsonValid_plain_name_payload :
    jsonValid (HereForNowRenderer.jsonPayload [65] [] 0 0) = true := by decide

/-- Claim C10: `tokenURI` splices the caller-supplied `name` (and
`description`) into the JSON document verbatim, with no escaping, for every
input; consequently, for the stored name consisting of one double-quote byte
(34), the base64-decoded payload of `tokenURI` is not a well-formed JSON
document (while the same document with a quote-free name is well-formed,
`jsonValid_plain_name_payload`). -/
theorem json_injection_unescaped :
    (∀ (name desc : List Nat) (n bal : Nat),
      HereForNowRenderer.jsonPayload name desc n bal =
        bytesOf "\x7b\"name\":\"" ++ name ++ HereForNowRenderer.jsonTail desc n bal) ∧
    b64decode ((HereForNowRenderer.tokenURI [34] [] 0 0).drop 29) =
      HereForNowRenderer.jsonPayload [34] [] 0 0 ∧
    jsonValid (HereForNowRenderer.jsonPayload [34] [] 0 0) = false := by
  refine ⟨fun name desc n bal => rfl, ?_, jsonValid_quote_name_payload⟩
  rw [tokenURI_drop29]
  exact decode_encode_bounded _ _ le_rfl
    (jsonPayload_lt [34] [] 0 0 (by decide) (by decide))
